import Mathlib

/-!
Verification development for the gndzero pipeline (gndzero.py).

The Python source is shallowly embedded: Python `str` values are modelled
as `String` / `List Char`, the sqlite store and the luigi file moves as an
explicit event trace replayed over a pure state, and the two regular
expressions of the source (`convert` and the GND identifier search) as
recursive functions over character lists that mirror `re.sub` / `re.search`
semantics (leftmost match, greedy character classes, non-overlapping
continuation after a match).
-/

namespace Gndzero

/-! ### Character classes (ASCII, as used by Python 2 `str` and `re`) -/

def isUpperCh (c : Char) : Bool := 'A' ≤ c ∧ c ≤ 'Z'

def isLowerCh (c : Char) : Bool := 'a' ≤ c ∧ c ≤ 'z'

def isDigitCh (c : Char) : Bool := '0' ≤ c ∧ c ≤ '9'

/-- Python 2 `str` whitespace: space, tab, newline, vertical tab, form feed,
carriage return. -/
def isSpaceCh (c : Char) : Bool :=
  c = ' ' ∨ c = '\t' ∨ c = '\n' ∨ c = '\x0b' ∨ c = '\x0c' ∨ c = '\r'

/-- ASCII lowercasing, as Python `str.lower` acts on ASCII letters. -/
def lowerCh (c : Char) : Char :=
  if isUpperCh c then Char.ofNat (c.toNat + 32) else c

/-- Is the first character of the list a lowercase letter? -/
def headLowerCh : List Char → Bool
  | [] => false
  | c :: _ => isLowerCh c

/-! ### Python string helpers used by `SqliteDB.run` -/

/-- `string.strip` / `str.strip()`: drop leading and trailing whitespace. -/
def pyStripChars (l : List Char) : List Char :=
  ((l.dropWhile isSpaceCh).reverse.dropWhile isSpaceCh).reverse

def pyStrip (s : String) : String := ⟨pyStripChars s.toList⟩

/-- Python `str.isspace`: non-empty and all characters whitespace. -/
def pyIsSpace (s : String) : Bool :=
  s.toList ≠ [] ∧ s.toList.all isSpaceCh

/-! ### `itertools.groupby(handle, key=str.isspace)`

`SqliteDB.run` iterates `itertools.groupby` over the line stream, keyed on
`str.isspace`.  `pygroupbyGo` is the streaming grouper: it carries the key
`k` of the group being built and that group's lines so far (reversed, in
`acc`); on a key change it closes the group and opens a new one.
`pygroupby` starts it on the first line. -/

def pygroupbyGo (k : Bool) (acc : List String) : List String → List (Bool × List String)
  | [] => [(k, acc.reverse)]
  | l :: ls =>
    if pyIsSpace l = k then pygroupbyGo k (l :: acc) ls
    else (k, acc.reverse) :: pygroupbyGo (pyIsSpace l) [l] ls

def pygroupby : List String → List (Bool × List String)
  | [] => []
  | l :: ls => pygroupbyGo (pyIsSpace l) [l] ls

/-! ### The identifier regex of `SqliteDB.run`

The source searches each candidate record's first (stripped) line with
`re.search('rdf:about="http://d-nb.info/gnd/([0-9X-]+)">', lines[0])`.
`reSearch` mirrors `re.search`: try the pattern anchored at every position
from the left; at a position the literal must match, then the greedy
character class `[0-9X-]+`, then the literal `">`.  Because `"` is not in
the class, greedy matching with backtracking succeeds at a position iff the
maximal class run after the literal is non-empty and immediately followed
by `">`; the capture is that maximal run. -/

def gndLit : List Char := "rdf:about=\"http://d-nb.info/gnd/".toList

/-- The regex character class `[0-9X-]`: digits, the letter `X`, hyphen. -/
def isIdCh (c : Char) : Bool := isDigitCh c ∨ c = 'X' ∨ c = '-'

/-- Does the list start with the closing literal `">`? -/
def startsEndLit : List Char → Bool
  | c1 :: c2 :: _ => c1 = '"' ∧ c2 = '>'
  | _ => false

/-- One anchored match attempt of the pattern at the head of `l`. -/
def tryMatch (l : List Char) : Option (List Char) :=
  if gndLit.isPrefixOf l then
    let rest := l.drop gndLit.length
    if rest.takeWhile isIdCh ≠ [] ∧ startsEndLit (rest.dropWhile isIdCh) = true then
      some (rest.takeWhile isIdCh)
    else none
  else none

/-- `re.search`: leftmost position where the pattern matches; the returned
value is capture group 1 (the identifier run). -/
def reSearch : List Char → Option (List Char)
  | [] => none
  | c :: rest =>
    match tryMatch (c :: rest) with
    | some r => some r
    | none => reSearch rest

/-! ### Record extraction (`SqliteDB.run` loop body) -/

/-- One iteration of the `for i, (k, lines) in enumerate(groups)` loop:
skip blank groups (`if k: continue`), strip every line, search the first
line, and on a match emit `(match.group(1), '\n'.join(lines))`.  The `[]`
branch models Python's `lines[0]` on an empty list (an IndexError); it is
unreachable for groups produced by `pygroupby` (see `pygroupby_sound`). -/
def processGroup : Bool × List String → Option (String × String)
  | (k, lns) =>
    if k then none
    else
      match lns.map pyStrip with
      | [] => none
      | first :: others =>
        match reSearch first.toList with
        | some idrun => some (⟨idrun⟩, "\n".intercalate (first :: others))
        | none => none

/-- The full stream of `(id, content)` rows inserted by `SqliteDB.run`,
in stream order. -/
def extractRecords (input : List String) : List (String × String) :=
  (pygroupby input).filterMap processGroup

/-- The surviving (non-blank) groups after stripping each of their lines:
the candidate records the extractor inspects, in stream order. -/
def stripGroups (input : List String) : List (List String) :=
  (pygroupby input).filterMap fun g => if g.1 then none else some (g.2.map pyStrip)

/-! ### The claim-side identifier pattern (spec wording)

The spec describes the accepted pattern as the literal
`http://d-nb.info/gnd/` followed by one or more characters of `[0-9A-Z-]`
followed by `">`.  `claimAccepts` formalises those words; `codeAccepts` is
the corresponding declarative form of the pattern the source actually
compiles (literal `rdf:about="http://d-nb.info/gnd/`, class `[0-9X-]`). -/

def claimLit : List Char := "http://d-nb.info/gnd/".toList

/-- The spec's character class `[0-9A-Z-]`. -/
def claimIdCh (c : Char) : Bool := isDigitCh c ∨ isUpperCh c ∨ c = '-'

/-- The claim's acceptance condition on a (stripped) first line. -/
def claimAccepts (l : List Char) : Prop :=
  ∃ pre mid post, l = pre ++ claimLit ++ mid ++ '"' :: '>' :: post ∧
    mid ≠ [] ∧ ∀ c ∈ mid, claimIdCh c = true

/-- Declarative form of the source's acceptance condition. -/
def codeAccepts (l : List Char) : Prop :=
  ∃ pre mid post, l = pre ++ gndLit ++ mid ++ '"' :: '>' :: post ∧
    mid ≠ [] ∧ ∀ c ∈ mid, isIdCh c = true

/-! ### `convert`: the CamelCase-to-hyphen slug

`convert(name)` is
`re.sub('([a-z0-9])([A-Z])', r'\1-\2', re.sub('(.)([A-Z][a-z]+)', r'\1-\2', name)).lower()`.
`sub1` embeds the inner substitution, `sub2` the outer one; both follow
`re.sub`: leftmost match, greedy `[a-z]+`, scanning resumes after the
replaced text. -/

/-- `re.sub('(.)([A-Z][a-z]+)', r'\1-\2', ·)`: a hyphen between any
non-newline character and an uppercase letter that begins an
uppercase-then-lowercase word; the matched text (including the whole
lowercase run) is consumed. -/
def sub1 : List Char → List Char
  | [] => []
  | [c] => [c]
  | c :: u :: rest =>
    if c ≠ '\n' ∧ isUpperCh u = true ∧ headLowerCh rest = true then
      c :: '-' :: u :: (rest.takeWhile isLowerCh ++ sub1 (rest.dropWhile isLowerCh))
    else
      c :: sub1 (u :: rest)
termination_by l => l.length
decreasing_by
  · simp only [List.length_cons]
    have h := (rest.dropWhile_sublist isLowerCh).length_le
    omega
  · simp only [List.length_cons]
    omega

/-- `re.sub('([a-z0-9])([A-Z])', r'\1-\2', ·)`: a hyphen between a
lowercase letter or digit and an uppercase letter; both matched characters
are consumed. -/
def sub2 : List Char → List Char
  | [] => []
  | [c] => [c]
  | c :: u :: rest =>
    if (isLowerCh c = true ∨ isDigitCh c = true) ∧ isUpperCh u = true then
      c :: '-' :: u :: sub2 rest
    else
      c :: sub2 (u :: rest)
termination_by l => l.length
decreasing_by
  · simp only [List.length_cons]
    omega
  · simp only [List.length_cons]
    omega

def pyLower (l : List Char) : List Char := l.map lowerCh

/-- `convert` from the source: the two substitutions, then `.lower()`. -/
def convert (name : String) : String := ⟨pyLower (sub2 (sub1 name.toList))⟩

/-- The slug as the claim words it: a hyphen at every lowercase-to-uppercase
transition and nowhere else, then lowercase. -/
def claimSlug : List Char → List Char
  | [] => []
  | [c] => [lowerCh c]
  | c :: u :: rest =>
    if isLowerCh c = true ∧ isUpperCh u = true then lowerCh c :: '-' :: claimSlug (u :: rest)
    else lowerCh c :: claimSlug (u :: rest)

/-- Position-wise hyphenation rule of the amended claim: a hyphen goes
between adjacent characters `c` and `u` (with following text `rest`) iff
`u` is uppercase and either `c` is a lowercase letter or digit, or `c` is
not a newline and `u` begins an uppercase-then-lowercase word.
`amendedSlug` inserts a hyphen exactly at those positions (lowercasing
happens afterwards, in `pyLower`). -/
def amendedSlug : List Char → List Char
  | [] => []
  | [c] => [c]
  | c :: u :: rest =>
    if isUpperCh u = true ∧
        ((isLowerCh c = true ∨ isDigitCh c = true) ∨ (c ≠ '\n' ∧ headLowerCh rest = true)) then
      c :: '-' :: amendedSlug (u :: rest)
    else c :: amendedSlug (u :: rest)

/-! ### Fingerprints (`DefaultTask.fingerprint`)

`_parameters` collects the task's `luigi.Parameter` attribute names by
iterating `self.__class__.__dict__.iteritems()` — an unordered dictionary:
the order in which parameters reach `fingerprint` is the iteration order,
not a sorted order.  `fingerprint` is therefore embedded as a function of
the parameter list in iteration order; `slugify.slugify` is an external
library, abstracted as the function argument `slugf`. -/

def joinHyphen : List (List Char) → List Char
  | [] => []
  | [p] => p
  | p :: ps => p ++ '-' :: joinHyphen ps

/-- `fingerprint(default='artefact')`: format each parameter in iteration
order as `name-slug(value)`, join with `-`, fall back to the default when
the result is empty. -/
def fingerprint (slugf : List Char → List Char) (params : List (List Char × List Char)) :
    List Char :=
  let parts := params.map fun nv => nv.1 ++ '-' :: slugf nv.2
  let fp := joinHyphen parts
  if fp = [] then "artefact".toList else fp

/-- `os.path.join` for the relative components used by `DefaultTask.path`. -/
def pathJoin (a b : List Char) : List Char := a ++ '/' :: b

/-- `DefaultTask.path`: `HOME/TAG/klassname/fingerprint.ext`. -/
def taskPath (tag klass fp ext : List Char) : List Char :=
  pathJoin (pathJoin (pathJoin "/media/mtc/Data/var/data".toList tag) klass) (fp ++ '.' :: ext)

/-! ### Stage runs as event traces

`GNDDump.run` and `GNDExtract.run` shell out (`wget` / `gunzip`) writing to
a random scratch path, raise on a non-zero exit, and otherwise move the
scratch file onto the canonical output path.  The file system is modelled
as the list of existing paths.  `SqliteDB.run` is modelled as the event
trace it performs against the sqlite store and the file system; `replay`
gives the trace its semantics. -/

def gndDumpRun (wgetExit : Int) (scratch canonical : String) (fs : List String) :
    Except String Unit × List String :=
  let fs1 := scratch :: fs
  if wgetExit = 0 then (Except.ok (), canonical :: fs1.erase scratch)
  else (Except.error "Could not download GND dump.", fs1)

/-- `GNDExtract.run`; its error string is the same as `GNDDump.run`'s
(copied verbatim in the source). -/
def gndExtractRun (gunzipExit : Int) (scratch canonical : String) (fs : List String) :
    Except String Unit × List String :=
  let fs1 := scratch :: fs
  if gunzipExit = 0 then (Except.ok (), canonical :: fs1.erase scratch)
  else (Except.error "Could not download GND dump.", fs1)

inductive Ev
  | createTable
  | createIndex
  | insertRow (r : String × String)
  | commitTx
  | closeDb
  | moveScratch (src dst : String)
deriving DecidableEq

def Ev.isCommit : Ev → Bool
  | Ev.commitTx => true
  | _ => false

structure DBState where
  pending : List (String × String)
  committed : List (String × String)
  commits : Nat
  closed : Bool
deriving DecidableEq

def initDB : DBState := ⟨[], [], 0, false⟩

structure PipeState where
  db : DBState
  files : List String
deriving DecidableEq

def stepEv (s : PipeState) : Ev → PipeState
  | Ev.createTable => s
  | Ev.createIndex => s
  | Ev.insertRow r => { s with db := { s.db with pending := s.db.pending ++ [r] } }
  | Ev.commitTx =>
      { s with db := { s.db with committed := s.db.committed ++ s.db.pending,
                                 pending := [], commits := s.db.commits + 1 } }
  | Ev.closeDb => { s with db := { s.db with closed := true } }
  | Ev.moveScratch src dst => { s with files := dst :: s.files.erase src }

def replay (evs : List Ev) (s : PipeState) : PipeState := evs.foldl stepEv s

/-- The event trace of a successful `SqliteDB.run`: create table and index,
insert every extracted row in stream order inside the one open transaction,
then — leaving the `with dbopen(...)` block — commit and close, and finally
move the scratch store onto the canonical path. -/
def sqliteRunEvents (input : List String) (scratch canonical : String) : List Ev :=
  [Ev.createTable, Ev.createIndex]
    ++ (extractRecords input).map Ev.insertRow
    ++ [Ev.commitTx, Ev.closeDb, Ev.moveScratch scratch canonical]

/-- The event trace of a `SqliteDB.run` whose `failIdx`-th insert raises:
the exception leaves the `with` block, whose `__exit__` still commits and
closes; the pending exception then prevents the move. -/
def sqliteRunEventsFail (input : List String) (failIdx : Nat) : List Ev :=
  [Ev.createTable, Ev.createIndex]
    ++ ((extractRecords input).take failIdx).map Ev.insertRow
    ++ [Ev.commitTx, Ev.closeDb]

/-- `SELECT content FROM gnd WHERE id = ?` over the committed rows. -/
def storeLookup (idv : String) (db : DBState) : List String :=
  (db.committed.filter fun r => r.1 = idv).map Prod.snd

/-! # Theorems -/

/-- `(l.dropWhile p).length ≤ l.length`. -/
theorem length_dropWhile_le' {α : Type} (p : α → Bool) (l : List α) :
    (l.dropWhile p).length ≤ l.length := by
  induction l with
  | nil => simp [List.dropWhile]
  | cons a t ih =>
    by_cases h : p a
    · simpa [List.dropWhile, h] using Nat.le_succ_of_le ih
    · simp [List.dropWhile, h]

theorem pygroupbyGo_join (ls : List String) : ∀ (k : Bool) (acc : List String),
    ((pygroupbyGo k acc ls).map Prod.snd).flatten = acc.reverse ++ ls := by
  induction ls with
  | nil => intro k acc; simp [pygroupbyGo]
  | cons l ls ih =>
    intro k acc
    by_cases h : pyIsSpace l = k
    · rw [pygroupbyGo, if_pos h, ih]
      simp
    · rw [pygroupbyGo, if_neg h]
      simp only [List.map_cons, List.flatten_cons, ih]
      simp

/-- The groups concatenate back to the input stream: `pygroupby` is a
partition. -/
theorem pygroupby_join (lines : List String) :
    ((pygroupby lines).map Prod.snd).flatten = lines := by
  cases lines with
  | nil => simp [pygroupby]
  | cons l ls => rw [pygroupby, pygroupbyGo_join]; simp

theorem pygroupbyGo_sound (ls : List String) : ∀ (k : Bool) (acc : List String),
    acc ≠ [] → (∀ x ∈ acc, pyIsSpace x = k) →
    ∀ g ∈ pygroupbyGo k acc ls, g.2 ≠ [] ∧ ∀ x ∈ g.2, pyIsSpace x = g.1 := by
  induction ls with
  | nil =>
    intro k acc hne hacc g hg
    simp only [pygroupbyGo, List.mem_singleton] at hg
    subst hg
    exact ⟨by simpa using hne, fun x hx => hacc x (by simpa using hx)⟩
  | cons l ls ih =>
    intro k acc hne hacc g hg
    by_cases h : pyIsSpace l = k
    · rw [pygroupbyGo, if_pos h] at hg
      refine ih k (l :: acc) (by simp) ?_ g hg
      intro x hx
      rcases List.mem_cons.mp hx with hx | hx
      · subst hx; exact h
      · exact hacc x hx
    · rw [pygroupbyGo, if_neg h] at hg
      rcases List.mem_cons.mp hg with hg | hg
      · subst hg
        exact ⟨by simpa using hne, fun x hx => hacc x (by simpa using hx)⟩
      · refine ih (pyIsSpace l) [l] (by simp) ?_ g hg
        intro x hx
        rcases List.mem_singleton.mp hx with hx
        subst hx; rfl

/-- Every group is non-empty and homogeneous: all its lines share its key. -/
theorem pygroupby_sound (lines : List String) (g : Bool × List String)
    (hg : g ∈ pygroupby lines) : g.2 ≠ [] ∧ ∀ x ∈ g.2, pyIsSpace x = g.1 := by
  cases lines with
  | nil => simp [pygroupby] at hg
  | cons l ls =>
    rw [pygroupby] at hg
    refine pygroupbyGo_sound ls (pyIsSpace l) [l] (by simp) ?_ g hg
    intro x hx
    rcases List.mem_singleton.mp hx with hx
    subst hx; rfl

theorem pygroupbyGo_head_key (ls : List String) : ∀ (k : Bool) (acc : List String),
    ∃ rest, ∃ grp, pygroupbyGo k acc ls = (k, grp) :: rest := by
  induction ls with
  | nil => intro k acc; exact ⟨[], acc.reverse, rfl⟩
  | cons l ls ih =>
    intro k acc
    by_cases h : pyIsSpace l = k
    · rw [pygroupbyGo, if_pos h]; exact ih k (l :: acc)
    · rw [pygroupbyGo, if_neg h]
      exact ⟨pygroupbyGo (pyIsSpace l) [l] ls, acc.reverse, rfl⟩

theorem pygroupbyGo_alternates (ls : List String) : ∀ (k : Bool) (acc : List String),
    List.Chain' (fun a b : Bool × List String => a.1 ≠ b.1) (pygroupbyGo k acc ls) := by
  induction ls with
  | nil => intro k acc; simp [pygroupbyGo]
  | cons l ls ih =>
    intro k acc
    by_cases h : pyIsSpace l = k
    · rw [pygroupbyGo, if_pos h]; exact ih k (l :: acc)
    · rw [pygroupbyGo, if_neg h]
      rw [List.chain'_cons']
      refine ⟨?_, ih (pyIsSpace l) [l]⟩
      intro y hy
      obtain ⟨rest, grp, heq⟩ := pygroupbyGo_head_key ls (pyIsSpace l) [l]
      rw [heq] at hy
      simp only [List.head?_cons, Option.mem_def, Option.some.injEq] at hy
      subst hy
      exact fun hcontra => h hcontra.symm

/-- Adjacent groups have different keys: the runs are maximal, alternating
between blank and non-blank. -/
theorem pygroupby_alternates (lines : List String) :
    List.Chain' (fun a b : Bool × List String => a.1 ≠ b.1) (pygroupby lines) := by
  cases lines with
  | nil => simp [pygroupby]
  | cons l ls => rw [pygroupby]; exact pygroupbyGo_alternates ls (pyIsSpace l) [l]

/-! ### Replay helpers -/

theorem replay_append (a b : List Ev) (s : PipeState) :
    replay (a ++ b) s = replay b (replay a s) := by
  simp [replay, List.foldl_append]

theorem replay_inserts (rs : List (String × String)) : ∀ s : PipeState,
    replay (rs.map Ev.insertRow) s =
      ⟨⟨s.db.pending ++ rs, s.db.committed, s.db.commits, s.db.closed⟩, s.files⟩ := by
  induction rs with
  | nil => intro s; simp [replay]
  | cons r rs ih =>
    intro s
    show replay (Ev.insertRow r :: rs.map Ev.insertRow) s = _
    rw [show replay (Ev.insertRow r :: rs.map Ev.insertRow) s
          = replay (rs.map Ev.insertRow) (stepEv s (Ev.insertRow r)) from rfl, ih]
    simp [stepEv]

/-- Net effect of a successful `SqliteDB.run` from a fresh store. -/
theorem replay_run (input : List String) (scratch canonical : String) (fs : List String) :
    replay (sqliteRunEvents input scratch canonical) ⟨initDB, fs⟩ =
      ⟨⟨[], extractRecords input, 1, true⟩, canonical :: fs.erase scratch⟩ := by
  rw [sqliteRunEvents, replay_append, replay_append, replay_inserts]
  simp [replay, stepEv, initDB]

/-- Net effect of a `SqliteDB.run` aborted at its `failIdx`-th insert. -/
theorem replay_runFail (input : List String) (failIdx : Nat) (fs : List String) :
    replay (sqliteRunEventsFail input failIdx) ⟨initDB, fs⟩ =
      ⟨⟨[], (extractRecords input).take failIdx, 1, true⟩, fs⟩ := by
  rw [sqliteRunEventsFail, replay_append, replay_append, replay_inserts]
  simp [replay, stepEv, initDB]

theorem length_filterMap_eq_length_filter {α β : Type} (f : α → Option β) (l : List α) :
    (l.filterMap f).length = (l.filter fun a => (f a).isSome).length := by
  induction l with
  | nil => rfl
  | cons a t ih =>
    cases hfa : f a with
    | none => simpa [List.filterMap_cons, List.filter_cons, hfa] using ih
    | some b => simpa [List.filterMap_cons, List.filter_cons, hfa] using ih

/-! ### Claim theorems -/

/-- C8: when a stage declares no parameters, `fingerprint` falls back to the
fixed default token `artefact` rather than the empty string, so the
canonical filename `fingerprint.ext` remains well-formed. -/
theorem fingerprint_empty_is_default (slugf : List Char → List Char) :
    fingerprint slugf [] = "artefact".toList ∧ fingerprint slugf [] ≠ [] := by
  refine ⟨rfl, fun h => ?_⟩
  have h2 : "artefact".toList = ([] : List Char) := h
  exact absurd h2 (by decide)

/-- C3 (code bug): `fingerprint` does not sort the parameters — it joins
them in the iteration order of the unordered `__dict__` scan, so the same
two named parameters yielded in different orders give different
fingerprints, for every slug function. -/
theorem fingerprint_depends_on_iteration_order (slugf : List Char → List Char) :
    fingerprint slugf [(['b'], ['1']), (['a'], ['2'])] ≠
      fingerprint slugf [(['a'], ['2']), (['b'], ['1'])] := by
  simp [fingerprint, joinHyphen]

/-- C2: the extractor partitions the stream into maximal runs alternating
between all-blank and all-non-blank lines (the groups concatenate back to
the stream, each is non-empty and homogeneous, and adjacent groups have
different blank status), blank runs are discarded and every surviving line
is stripped; on the spec's test vector exactly the two groups
`["line-a","line-b"]` and `["line-c"]` survive. -/
theorem recordExtractor_segmentation (lines : List String) :
    ((pygroupby lines).map Prod.snd).flatten = lines
    ∧ (∀ g ∈ pygroupby lines, g.2 ≠ [] ∧ ∀ x ∈ g.2, pyIsSpace x = g.1)
    ∧ List.Chain' (fun a b : Bool × List String => a.1 ≠ b.1) (pygroupby lines)
    ∧ stripGroups ["line-a\n", "line-b\n", "\n", "line-c\n"] =
        [["line-a", "line-b"], ["line-c"]] :=
  ⟨pygroupby_join lines, fun g hg => pygroupby_sound lines g hg,
    pygroupby_alternates lines, by decide⟩

theorem recordExtractor_segmentation_witness :
    (["a\n"] : List String) ≠ [] ∧ ∀ x ∈ (["a\n"] : List String), pyIsSpace x = false :=
  (recordExtractor_segmentation ["a\n", "\n"]).2.1 (false, ["a\n"]) (by decide)

/-- C10: every group produced by the segmentation is non-empty, and so is
its stripped image, so `lines[0]` in the identifier inspection never
indexes an empty list: the empty-list branch of `processGroup` is
unreachable. -/
theorem candidate_first_line_safe (lines : List String) (g : Bool × List String)
    (hg : g ∈ pygroupby lines) : g.2 ≠ [] ∧ g.2.map pyStrip ≠ [] := by
  have h := pygroupby_sound lines g hg
  refine ⟨h.1, fun hmap => h.1 ?_⟩
  simpa using hmap

theorem candidate_first_line_safe_witness :
    (["x\n"] : List String) ≠ [] ∧ (["x\n"] : List String).map pyStrip ≠ [] :=
  candidate_first_line_safe ["x\n"] (false, ["x\n"]) (by decide)

/-- C6: a successful `SqliteDB.run` commits exactly once; the commit comes
after every insert, and is immediately followed by the close and only then
the promotion of the scratch store to the canonical path. -/
theorem single_commit_at_close (input : List String) (scratch canonical : String) :
    (sqliteRunEvents input scratch canonical).countP Ev.isCommit = 1
    ∧ ∃ pre, sqliteRunEvents input scratch canonical =
          pre ++ [Ev.commitTx, Ev.closeDb, Ev.moveScratch scratch canonical]
        ∧ (∀ e ∈ pre, e.isCommit = false)
        ∧ ∀ r, Ev.insertRow r ∈ sqliteRunEvents input scratch canonical →
            Ev.insertRow r ∈ pre := by
  constructor
  · rw [sqliteRunEvents, List.countP_append, List.countP_append]
    have h0 : ((extractRecords input).map Ev.insertRow).countP Ev.isCommit = 0 := by
      rw [List.countP_eq_zero]
      intro e he
      obtain ⟨r, _, rfl⟩ := List.mem_map.mp he
      simp [Ev.isCommit]
    rw [h0]
    simp [List.countP_cons, Ev.isCommit]
  · refine ⟨[Ev.createTable, Ev.createIndex] ++ (extractRecords input).map Ev.insertRow,
      rfl, ?_, ?_⟩
    · intro e he
      rcases List.mem_append.mp he with he | he
      · simp only [List.mem_cons, List.not_mem_nil, or_false] at he
        rcases he with rfl | rfl <;> rfl
      · obtain ⟨r, _, rfl⟩ := List.mem_map.mp he
        rfl
    · intro r hr
      rw [sqliteRunEvents] at hr
      rcases List.mem_append.mp hr with h | h
      · exact h
      · simp at h

/-- C9: when the body of the `with dbopen(...)` block raises after `k`
successful inserts, `dbopen.__exit__` still commits and closes the store:
the first `k` rows are durably committed to the scratch store (not rolled
back), the transaction is left empty, and no file is moved. -/
theorem exit_commits_partial_rows (input : List String) (k : Nat) (fs : List String) :
    (replay (sqliteRunEventsFail input k) ⟨initDB, fs⟩).db.committed
        = (extractRecords input).take k
    ∧ (replay (sqliteRunEventsFail input k) ⟨initDB, fs⟩).db.pending = []
    ∧ (replay (sqliteRunEventsFail input k) ⟨initDB, fs⟩).db.closed = true
    ∧ (replay (sqliteRunEventsFail input k) ⟨initDB, fs⟩).files = fs := by
  refine ⟨?_, ?_, ?_, ?_⟩ <;> rw [replay_runFail]

/-- C5: after a successful run the committed store is exactly the extracted
row stream — one row per accepted group, in stream order, duplicates kept —
and looking up an id that heads exactly one accepted row returns exactly
that row's content. -/
theorem store_matches_extraction (input : List String) (scratch canonical : String)
    (fs : List String) :
    (replay (sqliteRunEvents input scratch canonical) ⟨initDB, fs⟩).db.committed
        = extractRecords input
    ∧ (replay (sqliteRunEvents input scratch canonical) ⟨initDB, fs⟩).db.committed.length
        = ((pygroupby input).filter fun g => (processGroup g).isSome).length
    ∧ ∀ idv c, (extractRecords input).filter (fun r => r.1 = idv) = [(idv, c)] →
        storeLookup idv (replay (sqliteRunEvents input scratch canonical) ⟨initDB, fs⟩).db
          = [c] := by
  have hrep := replay_run input scratch canonical fs
  refine ⟨by rw [hrep], ?_, ?_⟩
  · rw [hrep]
    show (extractRecords input).length = _
    rw [extractRecords]
    exact length_filterMap_eq_length_filter _ _
  · intro idv c h
    rw [storeLookup, hrep]
    show ((extractRecords input).filter fun r => r.1 = idv).map Prod.snd = [c]
    rw [h]
    rfl

theorem store_matches_extraction_witness :
    storeLookup "118540238"
      (replay (sqliteRunEvents ["rdf:about=\"http://d-nb.info/gnd/118540238\">"] "s" "c")
        ⟨initDB, []⟩).db
      = ["rdf:about=\"http://d-nb.info/gnd/118540238\">"] :=
  (store_matches_extraction ["rdf:about=\"http://d-nb.info/gnd/118540238\">"] "s" "c" []).2.2
    "118540238" "rdf:about=\"http://d-nb.info/gnd/118540238\">" (by decide)

/-- C4: when a stage aborts — `wget` or `gunzip` exits non-zero, or a
storage operation fails mid-run — the error is reported and no file appears
at the canonical artifact path; only a completed run moves the scratch file
there. -/
theorem abort_leaves_no_canonical (wgetExit gunzipExit : Int) (input : List String)
    (k : Nat) (scratch canonical : String) (fs : List String)
    (hfs : canonical ∉ fs) (hsc : canonical ≠ scratch) :
    (wgetExit ≠ 0 →
      (gndDumpRun wgetExit scratch canonical fs).1
          = Except.error "Could not download GND dump."
      ∧ canonical ∉ (gndDumpRun wgetExit scratch canonical fs).2)
    ∧ (gunzipExit ≠ 0 →
      (gndExtractRun gunzipExit scratch canonical fs).1
          = Except.error "Could not download GND dump."
      ∧ canonical ∉ (gndExtractRun gunzipExit scratch canonical fs).2)
    ∧ canonical ∉ (replay (sqliteRunEventsFail input k) ⟨initDB, fs⟩).files := by
  refine ⟨?_, ?_, ?_⟩
  · intro hw
    have heq : gndDumpRun wgetExit scratch canonical fs
        = (Except.error "Could not download GND dump.", scratch :: fs) := by
      simp only [gndDumpRun]
      rw [if_neg hw]
    rw [heq]
    refine ⟨rfl, fun hmem => ?_⟩
    rcases List.mem_cons.mp hmem with h | h
    · exact hsc h
    · exact hfs h
  · intro hg
    have heq : gndExtractRun gunzipExit scratch canonical fs
        = (Except.error "Could not download GND dump.", scratch :: fs) := by
      simp only [gndExtractRun]
      rw [if_neg hg]
    rw [heq]
    refine ⟨rfl, fun hmem => ?_⟩
    rcases List.mem_cons.mp hmem with h | h
    · exact hsc h
    · exact hfs h
  · rw [replay_runFail]
    exact hfs

theorem abort_leaves_no_canonical_witness :
    (gndDumpRun 1 "s" "c" []).1 = Except.error "Could not download GND dump."
    ∧ "c" ∉ (gndDumpRun 1 "s" "c" []).2 :=
  (abort_leaves_no_canonical 1 1 [] 0 "s" "c" [] (by decide) (by decide)).1 (by decide)

/-! ### The identifier pattern: `reSearch` versus its declarative form -/

theorem takeWhile_all_append {p : Char → Bool} :
    ∀ (xs : List Char) (c : Char) (ys : List Char),
    (∀ x ∈ xs, p x = true) → p c = false →
    (xs ++ c :: ys).takeWhile p = xs ∧ (xs ++ c :: ys).dropWhile p = c :: ys := by
  intro xs
  induction xs with
  | nil =>
    intro c ys _ hc
    constructor
    · rw [List.nil_append, List.takeWhile_cons_of_neg (by simp [hc])]
    · rw [List.nil_append, List.dropWhile_cons_of_neg (by simp [hc])]
  | cons a t ih =>
    intro c ys hall hc
    have ha : p a = true := hall a (List.mem_cons_self a t)
    obtain ⟨h1, h2⟩ := ih c ys (fun x hx => hall x (List.mem_cons_of_mem a hx)) hc
    constructor
    · rw [List.cons_append, List.takeWhile_cons_of_pos ha, h1]
    · rw [List.cons_append, List.dropWhile_cons_of_pos ha, h2]

theorem startsEndLit_iff (u : List Char) :
    startsEndLit u = true ↔ ∃ v, u = '"' :: '>' :: v := by
  match u with
  | [] => simp [startsEndLit]
  | [a] => simp [startsEndLit]
  | a :: b :: v =>
    constructor
    · intro h
      have hab : a = '"' ∧ b = '>' := by simpa [startsEndLit] using h
      exact ⟨v, by rw [hab.1, hab.2]⟩
    · rintro ⟨v', hv⟩
      obtain ⟨ha, hb, _⟩ : a = '"' ∧ b = '>' ∧ v = v' := by simpa using hv
      simp [startsEndLit, ha, hb]

/-- An anchored attempt succeeds exactly when the line starts with the
literal followed by a non-empty run of `[0-9X-]` followed by `">`. -/
theorem tryMatch_isSome_iff (l : List Char) :
    (∃ r, tryMatch l = some r) ↔
      ∃ mid post, l = gndLit ++ mid ++ '"' :: '>' :: post
        ∧ mid ≠ [] ∧ ∀ c ∈ mid, isIdCh c = true := by
  constructor
  · rintro ⟨r, hr⟩
    simp only [tryMatch] at hr
    by_cases hp : gndLit.isPrefixOf l
    case neg => rw [if_neg hp] at hr; exact absurd hr (by simp)
    rw [if_pos hp] at hr
    by_cases hcond : (l.drop gndLit.length).takeWhile isIdCh ≠ []
        ∧ startsEndLit ((l.drop gndLit.length).dropWhile isIdCh) = true
    case neg => rw [if_neg hcond] at hr; exact absurd hr (by simp)
    obtain ⟨hrun, hends⟩ := hcond
    obtain ⟨t, ht⟩ := List.isPrefixOf_iff_prefix.mp hp
    have hdrop : l.drop gndLit.length = t := by rw [← ht]; exact List.drop_left _ _
    obtain ⟨post, hpost⟩ := (startsEndLit_iff _).mp hends
    rw [hdrop] at hrun hpost
    refine ⟨t.takeWhile isIdCh, post, ?_, hrun, ?_⟩
    · rw [← ht, List.append_assoc, ← hpost, List.takeWhile_append_dropWhile]
    · intro c hc
      exact List.mem_takeWhile_imp hc
  · rintro ⟨mid, post, hl, hmid, hall⟩
    refine ⟨mid, ?_⟩
    have hp : gndLit.isPrefixOf l := by
      rw [List.isPrefixOf_iff_prefix]
      exact ⟨mid ++ '"' :: '>' :: post, by rw [hl, List.append_assoc]⟩
    have hdrop : l.drop gndLit.length = mid ++ '"' :: '>' :: post := by
      rw [hl, List.append_assoc]
      exact List.drop_left _ _
    obtain ⟨h1, h2⟩ := takeWhile_all_append mid '"' ('>' :: post) hall (by decide)
    simp only [tryMatch]
    rw [if_pos hp, hdrop, h1, h2, if_pos ⟨hmid, by simp [startsEndLit]⟩]

/-- `re.search` succeeds exactly when some position of the line carries the
pattern: the code's acceptance condition in declarative form. -/
theorem reSearch_isSome_iff : ∀ l : List Char,
    (∃ r, reSearch l = some r) ↔ codeAccepts l := by
  intro l
  induction l with
  | nil =>
    constructor
    · rintro ⟨r, hr⟩
      exact absurd hr (by simp [reSearch])
    · rintro ⟨pre, mid, post, h, _, _⟩
      have hlen := congrArg List.length h
      simp [gndLit] at hlen
      omega
  | cons c rest ih =>
    rw [codeAccepts]
    constructor
    · rintro ⟨r, hr⟩
      rw [reSearch] at hr
      cases htm : tryMatch (c :: rest) with
      | some r' =>
        obtain ⟨mid, post, hl, hmid, hall⟩ := (tryMatch_isSome_iff (c :: rest)).mp ⟨r', htm⟩
        exact ⟨[], mid, post, by simpa using hl, hmid, hall⟩
      | none =>
        rw [htm] at hr
        obtain ⟨pre, mid, post, hl, hmid, hall⟩ := ih.mp ⟨r, hr⟩
        refine ⟨c :: pre, mid, post, ?_, hmid, hall⟩
        simp only [List.cons_append]
        rw [← hl]
    · rintro ⟨pre, mid, post, hl, hmid, hall⟩
      rw [reSearch]
      cases pre with
      | nil =>
        obtain ⟨r, hr⟩ := (tryMatch_isSome_iff (c :: rest)).mpr
          ⟨mid, post, by simpa using hl, hmid, hall⟩
        rw [hr]
        exact ⟨r, rfl⟩
      | cons c' pre' =>
        simp only [List.cons_append] at hl
        have hrest : codeAccepts rest := by
          refine ⟨pre', mid, post, ?_, hmid, hall⟩
          exact (List.cons.injEq _ _ _ _ ▸ hl).2
        obtain ⟨r, hr⟩ := ih.mpr hrest
        cases htm : tryMatch (c :: rest) with
        | some r' => exact ⟨r', rfl⟩
        | none => exact ⟨r, hr⟩

theorem processGroup_cons (first : String) (others : List String) :
    processGroup (false, first :: others)
      = match reSearch (pyStripChars first.toList) with
        | some idrun => some (⟨idrun⟩, "\n".intercalate (pyStrip first :: others.map pyStrip))
        | none => none := rfl

/-- C1 (amended): a candidate record is accepted, and an `(id, content)`
pair emitted, iff its first stripped line contains the literal
`rdf:about="http://d-nb.info/gnd/` immediately followed by one or more
characters of `[0-9X-]` immediately followed by `">`; otherwise the run
produces zero rows. -/
theorem recordAccept_iff (first : String) (others : List String) :
    (∃ r, processGroup (false, first :: others) = some r) ↔
      codeAccepts (pyStripChars first.toList) := by
  rw [processGroup_cons, ← reSearch_isSome_iff]
  cases hs : reSearch (pyStripChars first.toList) with
  | some r => simp
  | none => simp

theorem recordAccept_iff_witness :
    codeAccepts (pyStripChars "rdf:about=\"http://d-nb.info/gnd/118540238\">".toList) :=
  (recordAccept_iff "rdf:about=\"http://d-nb.info/gnd/118540238\">" []).mp
    ⟨("118540238", "rdf:about=\"http://d-nb.info/gnd/118540238\">"), by decide⟩

/-- C1 counterexample: the claim's pattern (`http://d-nb.info/gnd/` then
`[0-9A-Z-]+` then `">`) matches this first line, yet the extractor emits no
row for it — the code's character class is `[0-9X-]` and its literal also
requires `rdf:about="`. -/
theorem recordAccept_counterexample :
    claimAccepts (pyStripChars "<rdf:Description rdf:about=\"http://d-nb.info/gnd/A\">".toList)
    ∧ extractRecords ["<rdf:Description rdf:about=\"http://d-nb.info/gnd/A\">"] = [] := by
  constructor
  · exact ⟨"<rdf:Description rdf:about=\"".toList, ['A'], [], by decide, by decide, by decide⟩
  · decide

/-! ### `convert`: characterizing the two-pass substitution -/

theorem not_upper_of_lower {c : Char} (h : isLowerCh c = true) : isUpperCh c = false := by
  have hl : 'a' ≤ c ∧ c ≤ 'z' := of_decide_eq_true h
  apply decide_eq_false
  rintro ⟨_, h2⟩
  exact absurd (le_trans hl.1 h2) (by decide)

theorem not_lower_of_upper {c : Char} (h : isUpperCh c = true) : isLowerCh c = false := by
  have hu : 'A' ≤ c ∧ c ≤ 'Z' := of_decide_eq_true h
  apply decide_eq_false
  rintro ⟨h1, _⟩
  exact absurd (le_trans h1 hu.2) (by decide)

theorem not_digit_of_upper {c : Char} (h : isUpperCh c = true) : isDigitCh c = false := by
  have hu : 'A' ≤ c ∧ c ≤ 'Z' := of_decide_eq_true h
  apply decide_eq_false
  rintro ⟨_, h2⟩
  exact absurd (le_trans hu.1 h2) (by decide)

/-- `sub1` never changes the first character. -/
theorem sub1_head (a : Char) (t : List Char) : ∃ X, sub1 (a :: t) = a :: X := by
  cases t with
  | nil => exact ⟨[], by simp [sub1]⟩
  | cons u rest =>
    by_cases hm : a ≠ '\n' ∧ isUpperCh u = true ∧ headLowerCh rest = true
    · refine ⟨'-' :: u :: (rest.takeWhile isLowerCh ++ sub1 (rest.dropWhile isLowerCh)), ?_⟩
      simp only [sub1]
      rw [if_pos hm]
    · refine ⟨sub1 (u :: rest), ?_⟩
      simp only [sub1]
      rw [if_neg hm]

theorem sub2_cons_cons_match {c u : Char} (W : List Char)
    (hc : isLowerCh c = true ∨ isDigitCh c = true) (hu : isUpperCh u = true) :
    sub2 (c :: u :: W) = c :: '-' :: u :: sub2 W := by
  simp only [sub2]
  rw [if_pos ⟨hc, hu⟩]

theorem sub2_cons_cons_neg {c u : Char} (W : List Char)
    (h : ¬((isLowerCh c = true ∨ isDigitCh c = true) ∧ isUpperCh u = true)) :
    sub2 (c :: u :: W) = c :: sub2 (u :: W) := by
  simp only [sub2]
  rw [if_neg h]

/-- `sub2` leaves a head that is neither lowercase nor a digit in place. -/
theorem sub2_cons_of_head {a : Char} (X : List Char)
    (h1 : isLowerCh a = false) (h2 : isDigitCh a = false) :
    sub2 (a :: X) = a :: sub2 X := by
  cases X with
  | nil => simp [sub2]
  | cons y Y =>
    apply sub2_cons_cons_neg
    rintro ⟨hor, _⟩
    rcases hor with h | h
    · rw [h1] at h; cases h
    · rw [h2] at h; cases h

theorem amendedSlug_cons_cons_pos {c u : Char} (rest : List Char)
    (h : isUpperCh u = true ∧
      ((isLowerCh c = true ∨ isDigitCh c = true) ∨ (c ≠ '\n' ∧ headLowerCh rest = true))) :
    amendedSlug (c :: u :: rest) = c :: '-' :: amendedSlug (u :: rest) := by
  simp only [amendedSlug]
  rw [if_pos h]

theorem amendedSlug_cons_cons_neg {c u : Char} (rest : List Char)
    (h : ¬(isUpperCh u = true ∧
      ((isLowerCh c = true ∨ isDigitCh c = true) ∨ (c ≠ '\n' ∧ headLowerCh rest = true)))) :
    amendedSlug (c :: u :: rest) = c :: amendedSlug (u :: rest) := by
  simp only [amendedSlug]
  rw [if_neg h]

theorem amendedSlug_cons_of_lower_head {u : Char} (rest : List Char)
    (h : headLowerCh rest = true) :
    amendedSlug (u :: rest) = u :: amendedSlug rest := by
  cases rest with
  | nil => simp [headLowerCh] at h
  | cons r0 r1 =>
    have hr0 : isLowerCh r0 = true := h
    apply amendedSlug_cons_cons_neg
    rintro ⟨hup, _⟩
    rw [not_upper_of_lower hr0] at hup
    cases hup

theorem headLowerCh_dropWhile (l : List Char) :
    headLowerCh (l.dropWhile isLowerCh) = false := by
  induction l with
  | nil => rfl
  | cons a t ih =>
    by_cases ha : isLowerCh a = true
    · rw [List.dropWhile_cons_of_pos ha]
      exact ih
    · rw [List.dropWhile_cons_of_neg (by simpa using ha)]
      show isLowerCh a = false
      revert ha
      cases isLowerCh a <;> simp

/-- Walking `sub2` over a run of lowercase letters that `sub1` copied
verbatim: the hyphens of the positional rule appear exactly where `sub2`
puts them. -/
theorem sub2_lower_run : ∀ (ls rest' : List Char),
    (∀ a ∈ ls, isLowerCh a = true) → headLowerCh rest' = false →
    sub2 (sub1 rest') = amendedSlug rest' →
    sub2 (ls ++ sub1 rest') = amendedSlug (ls ++ rest') := by
  intro ls
  induction ls with
  | nil =>
    intro rest' _ _ ihp
    simpa using ihp
  | cons a ls2 ihls =>
    intro rest' hall hr ihp
    have ha : isLowerCh a = true := hall a (List.mem_cons_self a ls2)
    cases ls2 with
    | cons b ls3 =>
      have hb : isLowerCh b = true := hall b (by simp)
      have hup : isUpperCh b = false := not_upper_of_lower hb
      simp only [List.cons_append]
      rw [sub2_cons_cons_neg _ (by rintro ⟨_, h⟩; rw [hup] at h; cases h)]
      rw [amendedSlug_cons_cons_neg _ (by rintro ⟨h, _⟩; rw [hup] at h; cases h)]
      have hrec := ihls rest' (fun x hx => hall x (List.mem_cons_of_mem a hx)) hr ihp
      simp only [List.cons_append] at hrec
      rw [hrec]
    | nil =>
      simp only [List.cons_append, List.nil_append]
      cases rest' with
      | nil => simp [sub1, sub2, amendedSlug]
      | cons h t =>
        obtain ⟨X, hX⟩ := sub1_head h t
        rw [hX]
        by_cases hu : isUpperCh h = true
        · rw [sub2_cons_cons_match X (Or.inl ha) hu]
          have e2 : h :: sub2 X = sub2 (h :: X) :=
            (sub2_cons_of_head X (not_lower_of_upper hu) (not_digit_of_upper hu)).symm
          rw [e2, ← hX, ihp, amendedSlug_cons_cons_pos t ⟨hu, Or.inl (Or.inl ha)⟩]
        · rw [sub2_cons_cons_neg X (by rintro ⟨_, h2⟩; exact hu h2)]
          rw [← hX, ihp]
          rw [amendedSlug_cons_cons_neg t (by rintro ⟨h2, _⟩; exact hu h2)]

/-- The composition of the two `re.sub` passes equals the positional
hyphenation rule. -/
theorem sub2_sub1_eq_amended : ∀ (n : Nat) (l : List Char), l.length ≤ n →
    sub2 (sub1 l) = amendedSlug l := by
  intro n
  induction n with
  | zero =>
    intro l hl
    have h0 : l = [] := List.length_eq_zero.mp (Nat.le_zero.mp hl)
    subst h0
    simp [sub1, sub2, amendedSlug]
  | succ n ih =>
    intro l hl
    cases l with
    | nil => simp [sub1, sub2, amendedSlug]
    | cons c t =>
      cases t with
      | nil => simp [sub1, sub2, amendedSlug]
      | cons u rest =>
        by_cases hm : c ≠ '\n' ∧ isUpperCh u = true ∧ headLowerCh rest = true
        · have e1 : sub1 (c :: u :: rest)
              = c :: '-' :: u ::
                  (rest.takeWhile isLowerCh ++ sub1 (rest.dropWhile isLowerCh)) := by
            simp only [sub1]
            rw [if_pos hm]
          have hlen : (rest.dropWhile isLowerCh).length ≤ n := by
            have h1 := (rest.dropWhile_sublist isLowerCh).length_le
            simp only [List.length_cons] at hl
            omega
          have hB := sub2_lower_run (rest.takeWhile isLowerCh) (rest.dropWhile isLowerCh)
            (fun x hx => List.mem_takeWhile_imp hx) (headLowerCh_dropWhile rest)
            (ih (rest.dropWhile isLowerCh) hlen)
          rw [List.takeWhile_append_dropWhile] at hB
          rw [e1]
          rw [sub2_cons_cons_neg _ (by rintro ⟨_, h⟩; exact absurd h (by decide))]
          rw [sub2_cons_of_head _ (by decide) (by decide)]
          rw [sub2_cons_of_head _ (not_lower_of_upper hm.2.1) (not_digit_of_upper hm.2.1)]
          rw [hB]
          rw [amendedSlug_cons_cons_pos rest ⟨hm.2.1, Or.inr ⟨hm.1, hm.2.2⟩⟩]
          rw [amendedSlug_cons_of_lower_head rest hm.2.2]
        · have e1 : sub1 (c :: u :: rest) = c :: sub1 (u :: rest) := by
            simp only [sub1]
            rw [if_neg hm]
          obtain ⟨X, hX⟩ := sub1_head u rest
          have ihur : sub2 (sub1 (u :: rest)) = amendedSlug (u :: rest) := by
            apply ih
            simp only [List.length_cons] at hl ⊢
            omega
          by_cases hs : (isLowerCh c = true ∨ isDigitCh c = true) ∧ isUpperCh u = true
          · rw [e1, hX, sub2_cons_cons_match X hs.1 hs.2]
            have e2 : u :: sub2 X = sub2 (u :: X) :=
              (sub2_cons_of_head X (not_lower_of_upper hs.2) (not_digit_of_upper hs.2)).symm
            rw [e2, ← hX, ihur, amendedSlug_cons_cons_pos rest ⟨hs.2, Or.inl hs.1⟩]
          · rw [e1, hX, sub2_cons_cons_neg X hs, ← hX, ihur]
            rw [amendedSlug_cons_cons_neg rest ?hneg]
            case hneg =>
              rintro ⟨hup, hor⟩
              rcases hor with h | h
              · exact hs ⟨h, hup⟩
              · exact hm ⟨h.1, hup, h.2⟩

/-- C7 counterexample: the claim allows a hyphen only at a
lowercase-to-uppercase transition, but `convert "GNDDump"` is `"gnd-dump"`
— the first substitution also breaks the uppercase run `GNDD` before the
word `Dump`. -/
theorem convert_counterexample :
    convert "GNDDump" ≠ (⟨claimSlug "GNDDump".toList⟩ : String) := by
  have h1 : convert "GNDDump" = "gnd-dump" := by
    simp [convert, sub1, sub2, pyLower, headLowerCh, isUpperCh, isLowerCh, isDigitCh,
      lowerCh, List.takeWhile, List.dropWhile]
  rw [h1]
  decide

/-- C7 (amended): `convert` lowercases and inserts a hyphen between two
adjacent characters exactly when the second is uppercase and either the
first is a lowercase letter or a digit, or the first is not a newline and
the second begins an uppercase-then-lowercase word — i.e. also inside an
uppercase run right before its last letter when a lowercase word follows,
not only at lowercase-to-uppercase transitions. -/
theorem convert_amended (s : String) :
    convert s = (⟨pyLower (amendedSlug s.toList)⟩ : String) := by
  rw [convert, sub2_sub1_eq_amended s.toList.length s.toList (le_refl _)]

end Gndzero
